import Mathlib

/-!
Verification of the self-cleaning expiring thread cache of `src/api/chat.py`
(`ExpCache`, `get_thread_cache`, and the fallback block of
`stream_openai_text`).

`ExpCache` subclasses `cachetools.TTLCache`.  The base-class behaviour that the
subclass inherits (per-item TTL bookkeeping kept in insertion order, an LRU
order over the live keys, `expire` removing the expired prefix, `popitem`
evicting the least-recently-used key, `__setitem__` running the expiry sweep
and then the capacity-eviction loop) is embedded here together with the
subclass overrides, since the claims are about the composed object.

Time is modelled as a natural number passed explicitly to each operation (the
monotonic timer read the Python code performs at the start of the operation).
The fire-and-forget remote thread deletion (`asyncio.create_task` on
`AzureAIAgentThread.delete`) is modelled by a behaviour function saying, per
(key, thread id), whether constructing/scheduling the deletion raises; each
operation returns the list of cleanup events it emitted, mirroring the
`try/except` blocks of `ExpCache.expire` and `ExpCache.popitem`.
-/

namespace NcData

/-- Opaque handle for the Azure AI agent passed to `ExpCache.__init__`;
only its identity and its `client` field matter to the cache code. -/
structure Agent where
  client : Nat
deriving DecidableEq, Repr

/-- One link of the TTL cache: a key, its cached thread id, and the absolute
expiry instant (`insertion time + ttl`). -/
structure Entry where
  key : String
  tid : String
  expires : Nat
deriving DecidableEq, Repr

/-- State of an `ExpCache` instance.
`links` is the TTL-ordered list of live entries (oldest expiry first), the
linked list `TTLCache` threads through its `_Link` objects; `lru` is the key
order of the `__links` ordered dictionary (least recently used first);
`maxsize`, `ttl` and `agent` are the constructor arguments. -/
structure ExpCache where
  links : List Entry
  lru : List String
  maxsize : Nat
  ttl : Nat
  agent : Option Agent
deriving DecidableEq, Repr

/-- Outcome, for one removed entry, of the cleanup block that `ExpCache.expire`
and `ExpCache.popitem` run: the deletion task was scheduled, or the attempt
raised and the exception was caught and logged, or no agent was configured and
cleanup was skipped. -/
inductive CleanupEvent where
  | scheduled : String → String → CleanupEvent
  | failed : String → String → CleanupEvent
  | skipped : String → String → CleanupEvent
deriving DecidableEq, Repr

/-- Environment behaviour of the remote-deletion scheduling: `true` means the
attempt for that (key, thread id) raises an exception. -/
def DeleteBehavior : Type := String → String → Bool

/-- The normal environment: scheduling a deletion task never raises. -/
def noFail : DeleteBehavior := fun _ _ => false

/-- An environment in which every deletion attempt raises. -/
def alwaysFail : DeleteBehavior := fun _ _ => true

/-- Keys currently stored, in TTL order. -/
def ExpCache.keys (c : ExpCache) : List String := c.links.map Entry.key

/-- Number of stored entries (`TTLCache` uses unit sizes, so `__currsize` is
the entry count). -/
def ExpCache.size (c : ExpCache) : Nat := c.links.length

/-- `ExpCache.__init__`: an empty cache with the given bounds and optional
agent handle. -/
def mkExpCache (maxsize ttl : Nat) (agent : Option Agent) : ExpCache :=
  { links := [], lru := [], maxsize := maxsize, ttl := ttl, agent := agent }

/-- Dictionary lookup `self.__links[key]` / `self.__data[key]`: the entry
stored under `k`, if any. -/
def lookupEntry (c : ExpCache) (k : String) : Option Entry :=
  c.links.find? (fun e => e.key == k)

/-- The `while ... not (curr.expires > time)` test of `TTLCache.expire`:
an entry is due for removal when its expiry instant is not in the future. -/
def isExpiredAt (now : Nat) (e : Entry) : Bool := e.expires ≤ now

/-- One iteration of the cleanup loop shared by `ExpCache.expire` and
`ExpCache.popitem`: with an agent, build the thread handle and schedule its
deletion, catching any exception; without an agent, skip. -/
def cleanupOne (agent : Option Agent) (δ : DeleteBehavior) (k tid : String) :
    CleanupEvent :=
  match agent with
  | some _ => if δ k tid then .failed k tid else .scheduled k tid
  | none => .skipped k tid

/-- `TTLCache.expire(time)`: remove the prefix of TTL-ordered links whose
expiry has passed (the loop stops at the first live link), deleting each of
those keys from the data and from the ordered key dictionary, and return the
removed (entry) list together with the new state. -/
def ttlExpire (c : ExpCache) (now : Nat) : List Entry × ExpCache :=
  let ex := c.links.takeWhile (isExpiredAt now)
  (ex,
   { c with
      links := c.links.dropWhile (isExpiredAt now)
      lru := c.lru.filter (fun k => !(ex.any (fun e => e.key == k))) })

/-- `ExpCache.expire(time)`: run the base-class sweep, then, for each removed
`(key, thread_id)` pair, run the guarded cleanup block once.  Returns the
removed pairs (the method's return value), the cleanup events emitted, and the
new state. -/
def ExpCache.expire (c : ExpCache) (now : Nat) (δ : DeleteBehavior) :
    List (String × String) × List CleanupEvent × ExpCache :=
  let r := ttlExpire c now
  (r.1.map (fun e => (e.key, e.tid)),
   r.1.map (fun e => cleanupOne c.agent δ e.key e.tid),
   r.2)

/-- Removal of the entry stored under `k` from both the data/link list and the
ordered key dictionary (`del self.__data[key]`; `self.__links.pop(key)`);
dictionary keys are unique, so this removes exactly that entry. -/
def removeKey (c : ExpCache) (k : String) : ExpCache :=
  { c with
      links := c.links.filter (fun e => !(e.key == k))
      lru := c.lru.filter (fun x => !(x == k)) }

/-- `key in self` (`TTLCache.__contains__`): the key is stored and its expiry
is still in the future; no LRU reordering. -/
def ExpCache.containsLive (c : ExpCache) (now : Nat) (k : String) : Bool :=
  match lookupEntry c k with
  | some e => now < e.expires
  | none => false

/-- `cache.get(key, default)` = `Cache.get` over `TTLCache.__getitem__`:
if the key is stored, `__getlink` moves it to the most-recently-used end of
the key order even when it turns out expired; an expired or absent key yields
the default (`KeyError` caught by `get`), a live key its value.  No entry is
removed and no cleanup runs on this path. -/
def ExpCache.get (c : ExpCache) (now : Nat) (k default : String) :
    String × ExpCache :=
  match lookupEntry c k with
  | none => (default, c)
  | some e =>
      let moved := { c with lru := c.lru.filter (fun x => !(x == k)) ++ [k] }
      if now < e.expires then (e.tid, moved) else (default, moved)

/-- `cache.pop(key, default)` (`Cache.pop` with a default): if `key in self`
(live), read the value via `__getitem__` (which moves the key to the
most-recently-used end) and delete the entry; otherwise return the default and
leave the cache untouched.  The path contains no cleanup call. -/
def ExpCache.pop (c : ExpCache) (now : Nat) (k : String) :
    Option String × ExpCache :=
  if c.containsLive now k then
    match lookupEntry c k with
    | some e => (some e.tid, removeKey c k)
    | none => (none, c)
  else (none, c)

/-- `ExpCache.popitem()`: run the expiry sweep (the overridden `expire`, so it
emits cleanup events), take the least-recently-used key from the front of the
key order (`KeyError`, modelled `none`, when empty), remove it via
`self.pop`, and run the guarded cleanup block once for the evicted pair. -/
def ExpCache.popitem (c : ExpCache) (now : Nat) (δ : DeleteBehavior) :
    Option ((String × String) × List CleanupEvent × ExpCache) :=
  let r := c.expire now δ
  let c1 := r.2.2
  match c1.lru.head? with
  | none => none
  | some k =>
      match lookupEntry c1 k with
      | some e =>
          if now < e.expires then
            some ((k, e.tid),
                  r.2.1 ++ [cleanupOne c.agent δ k e.tid],
                  removeKey c1 k)
          else none
      | none => none

/-- The `while self.__currsize + size > maxsize: self.popitem()` loop of
`Cache.__setitem__` (unit entry sizes).  The fuel argument bounds the number
of iterations; on well-formed states the loop needs at most `size` rounds, and
running out of fuel or popping from an empty cache models the `KeyError` the
Python loop would raise there. -/
def evictLoop (fuel : Nat) (c : ExpCache) (now : Nat) (δ : DeleteBehavior) :
    Option (List CleanupEvent × ExpCache) :=
  match fuel with
  | 0 => none
  | fuel + 1 =>
      if c.size + 1 ≤ c.maxsize then some ([], c)
      else
        match c.popitem now δ with
        | none => none
        | some (_, evs, c1) =>
            match evictLoop fuel c1 now δ with
            | none => none
            | some (evs2, c2) => some (evs ++ evs2, c2)

/-- `cache[key] = value` (`TTLCache.__setitem__` with the `ExpCache`
overrides): raise `ValueError` (modelled `none`) when a unit size exceeds
`maxsize`; run the expiry sweep; let `Cache.__setitem__` store the value,
evicting least-recently-used entries first when the key is fresh and the cache
is full; finally unlink any old link for the key and append a fresh link
expiring at `now + ttl`, moving the key to the most-recently-used end. -/
def ExpCache.set (c : ExpCache) (now : Nat) (k v : String)
    (δ : DeleteBehavior) : Option (List CleanupEvent × ExpCache) :=
  if c.maxsize < 1 then none
  else
    let r := c.expire now δ
    let c1 := r.2.2
    let step2 : Option (List CleanupEvent × ExpCache) :=
      if (lookupEntry c1 k).isSome then some ([], c1)
      else evictLoop (c1.size + 1) c1 now δ
    match step2 with
    | none => none
    | some (evs2, c2) =>
        some (r.2.1 ++ evs2,
              { c2 with
                  links := c2.links.filter (fun e => !(e.key == k))
                            ++ [{ key := k, tid := v, expires := now + c.ttl }]
                  lru := c2.lru.filter (fun x => !(x == k)) ++ [k] })

/-- `get_thread_cache(agent)` acting on the module-level `thread_cache`
variable: create the instance with `maxsize=1000, ttl=3600.0` on first use,
return the existing instance afterwards.  The pair is (returned cache, new
value of the global variable). -/
def getThreadCache (g : Option ExpCache) (agent : Agent) :
    ExpCache × Option ExpCache :=
  match g with
  | none =>
      let c := mkExpCache 1000 3600 (some agent)
      (c, some c)
  | some c => (c, some c)

/-- The fallback block in the `finally` clause of `stream_openai_text` when no
response content was obtained: `pop(conversation_id, None)`; when a thread id
was cached, re-insert it under `f"{conversation_id}_corrupt_{suffix}"` (the
suffix is the random integer drawn there). -/
def streamFallbackCleanup (c : ExpCache) (now : Nat) (cid : String)
    (suffix : Nat) (δ : DeleteBehavior) :
    Option (List CleanupEvent × ExpCache) :=
  let r := c.pop now cid
  match r.1 with
  | none => some ([], r.2)
  | some tid =>
      r.2.set now (cid ++ "_corrupt_" ++ toString suffix) tid δ

/-- A sequence of `set` operations (time stamp, key, value) applied in order,
as in the capacity-invariant property; `none` when some `set` raised. -/
def runSets (c : ExpCache) (δ : DeleteBehavior) :
    List (Nat × String × String) → Option ExpCache
  | [] => some c
  | (t, k, v) :: rest =>
      match c.set t k v δ with
      | none => none
      | some (_, c1) => runSets c1 δ rest

/-- Time stamps of an operation sequence are nondecreasing, starting no
earlier than `now` (the monotonic timer only moves forward). -/
def MonoFrom (now : Nat) : List (Nat × String × String) → Prop
  | [] => True
  | (t, _, _) :: rest => now ≤ t ∧ MonoFrom t rest

/-- The key a cleanup event is about. -/
def CleanupEvent.evKey : CleanupEvent → String
  | .scheduled k _ => k
  | .failed k _ => k
  | .skipped k _ => k

/-- Structural invariant of every reachable `ExpCache` state: keys are unique
(they index a dictionary), the LRU key order holds exactly the stored keys,
and the TTL-ordered link list has nondecreasing expiry instants (each link is
appended with `now + ttl` for the monotone timer value `now`). -/
structure WF (c : ExpCache) : Prop where
  nodup : c.keys.Nodup
  perm : c.lru.Perm c.keys
  sorted : c.links.Pairwise (fun a b => a.expires ≤ b.expires)

/-- Every stored entry is still live at `now`: the state right after an expiry
sweep at `now`. -/
def AllLive (c : ExpCache) (now : Nat) : Prop :=
  ∀ e ∈ c.links, now < e.expires

/-- Every stored expiry instant is at most `now + ttl`: true whenever all
insertions happened at timer values at most `now`. -/
def Bounded (c : ExpCache) (now : Nat) : Prop :=
  ∀ e ∈ c.links, e.expires ≤ now + c.ttl

theorem Bounded.mono {c : ExpCache} {n1 n2 : Nat} (h : Bounded c n1)
    (h12 : n1 ≤ n2) : Bounded c n2 :=
  fun e he => le_trans (h e he) (Nat.add_le_add_right h12 c.ttl)

theorem lookupEntry_key {c : ExpCache} {k : String} {e : Entry}
    (h : lookupEntry c k = some e) : e.key = k := by
  have := List.find?_some h
  simpa using this

theorem lookupEntry_mem {c : ExpCache} {k : String} {e : Entry}
    (h : lookupEntry c k = some e) : e ∈ c.links :=
  List.mem_of_find?_eq_some h

theorem lookupEntry_isSome_iff {c : ExpCache} {k : String} :
    (lookupEntry c k).isSome ↔ k ∈ c.keys := by
  unfold lookupEntry ExpCache.keys
  rw [List.find?_isSome]
  constructor
  · rintro ⟨e, he, hk⟩
    exact List.mem_map.mpr ⟨e, he, by simpa using hk⟩
  · rintro hk
    rcases List.mem_map.mp hk with ⟨e, he, hk⟩
    exact ⟨e, he, by simpa using hk⟩

theorem lookupEntry_eq_none_iff {c : ExpCache} {k : String} :
    lookupEntry c k = none ↔ k ∉ c.keys := by
  rw [← lookupEntry_isSome_iff]
  cases lookupEntry c k <;> simp

/-- With unique keys, any stored entry whose key is `k` is the one `lookup`
returns. -/
theorem lookupEntry_of_mem {c : ExpCache} (hn : c.keys.Nodup) {e : Entry}
    (he : e ∈ c.links) (k : String) (hk : e.key = k) :
    lookupEntry c k = some e := by
  have hs : (lookupEntry c k).isSome := by
    rw [lookupEntry_isSome_iff]
    exact hk ▸ List.mem_map_of_mem Entry.key he
  rcases Option.isSome_iff_exists.mp hs with ⟨e2, he2⟩
  have hmem2 := lookupEntry_mem he2
  have hkey2 := lookupEntry_key he2
  have : e2 = e := List.inj_on_of_nodup_map hn hmem2 he (by rw [hkey2, hk])
  rw [he2, this]

theorem keys_removeKey (c : ExpCache) (k : String) :
    (removeKey c k).keys = c.keys.filter (fun x => !(x == k)) := by
  unfold removeKey ExpCache.keys
  simp only
  rw [List.filter_map]
  rfl

theorem not_mem_keys_removeKey (c : ExpCache) (k : String) :
    k ∉ (removeKey c k).keys := by
  rw [keys_removeKey]
  intro h
  have := (List.mem_filter.mp h).2
  simp at this

theorem lookupEntry_removeKey_self (c : ExpCache) (k : String) :
    lookupEntry (removeKey c k) k = none :=
  lookupEntry_eq_none_iff.mpr (not_mem_keys_removeKey c k)

theorem WF_removeKey {c : ExpCache} (h : WF c) (k : String) :
    WF (removeKey c k) := by
  refine ⟨?_, ?_, ?_⟩
  · rw [keys_removeKey]
    exact (List.filter_sublist _).nodup h.nodup
  · rw [keys_removeKey]
    show (c.lru.filter _).Perm _
    exact h.perm.filter _
  · exact List.Pairwise.sublist (List.filter_sublist _) h.sorted

theorem links_removeKey_sublist (c : ExpCache) (k : String) :
    (removeKey c k).links.Sublist c.links :=
  List.filter_sublist _

theorem size_removeKey_lt {c : ExpCache} {k : String} (h : k ∈ c.keys) :
    (removeKey c k).size < c.size := by
  unfold removeKey ExpCache.size
  simp only
  rcases List.mem_map.mp h with ⟨e, he, hk⟩
  exact List.length_filter_lt_length_iff_exists.mpr ⟨e, he, by simp [hk]⟩

theorem find?_filter_of_imp {α : Type} {l : List α} {p q : α → Bool}
    (h : ∀ e, p e = true → q e = true) :
    (l.filter q).find? p = l.find? p := by
  induction l with
  | nil => rfl
  | cons a t ih =>
      by_cases hq : q a = true
      · rw [List.filter_cons_of_pos hq]
        by_cases hp : p a = true
        · simp [List.find?_cons, hp]
        · have hp2 : p a = false := by simpa using hp
          simp only [List.find?_cons, hp2]
          exact ih
      · have hp : p a = false := by
          rcases Bool.eq_false_or_eq_true (p a) with h2 | h2
          · exact absurd (h a h2) hq
          · exact h2
        rw [List.filter_cons_of_neg (by simpa using hq)]
        simp only [List.find?_cons, hp]
        exact ih

theorem lookupEntry_removeKey_other (c : ExpCache) {k j : String}
    (hjk : j ≠ k) : lookupEntry (removeKey c j) k = lookupEntry c k := by
  unfold lookupEntry removeKey
  simp only
  exact find?_filter_of_imp (fun e hp => by
    have hk : e.key = k := by simpa using hp
    simp only [hk, Bool.not_eq_eq_eq_not, Bool.not_true, beq_eq_false_iff_ne,
      ne_eq]
    exact fun h2 => hjk h2.symm)

theorem ttlExpire_snd_links (c : ExpCache) (now : Nat) :
    (ttlExpire c now).2.links = c.links.dropWhile (isExpiredAt now) := rfl

theorem ttlExpire_snd_maxsize (c : ExpCache) (now : Nat) :
    (ttlExpire c now).2.maxsize = c.maxsize := rfl

theorem ttlExpire_snd_ttl (c : ExpCache) (now : Nat) :
    (ttlExpire c now).2.ttl = c.ttl := rfl

theorem ttlExpire_snd_agent (c : ExpCache) (now : Nat) :
    (ttlExpire c now).2.agent = c.agent := rfl

theorem ttlExpire_links_sublist (c : ExpCache) (now : Nat) :
    (ttlExpire c now).2.links.Sublist c.links :=
  List.dropWhile_sublist _

theorem ttlExpire_size_le (c : ExpCache) (now : Nat) :
    (ttlExpire c now).2.size ≤ c.size :=
  (ttlExpire_links_sublist c now).length_le

/-- Elements surviving `dropWhile` of the expiry test on a TTL-sorted list are
all live: the first survivor fails the test and the others expire later. -/
theorem live_of_mem_dropWhile {l : List Entry}
    (hs : l.Pairwise (fun a b => a.expires ≤ b.expires)) {now : Nat}
    {e : Entry} (he : e ∈ l.dropWhile (isExpiredAt now)) : now < e.expires := by
  induction l with
  | nil => simp at he
  | cons a t ih =>
      rw [List.dropWhile_cons] at he
      by_cases hp : isExpiredAt now a = true
      · rw [if_pos hp] at he
        exact ih (List.pairwise_cons.mp hs).2 he
      · rw [if_neg hp] at he
        have ha : now < a.expires := by
          unfold isExpiredAt at hp
          simp at hp
          omega
        rcases List.mem_cons.mp he with rfl | het
        · exact ha
        · exact lt_of_lt_of_le ha ((List.pairwise_cons.mp hs).1 e het)

theorem ttlExpire_allLive {c : ExpCache} (h : WF c) (now : Nat) :
    AllLive (ttlExpire c now).2 now := by
  intro e he
  rw [ttlExpire_snd_links] at he
  exact live_of_mem_dropWhile h.sorted he

theorem keys_split (c : ExpCache) (now : Nat) :
    c.keys = (c.links.takeWhile (isExpiredAt now)).map Entry.key
      ++ (c.links.dropWhile (isExpiredAt now)).map Entry.key := by
  unfold ExpCache.keys
  rw [← List.map_append, List.takeWhile_append_dropWhile]

theorem WF_ttlExpire {c : ExpCache} (h : WF c) (now : Nat) :
    WF (ttlExpire c now).2 := by
  have hex := List.takeWhile_sublist (l := c.links) (isExpiredAt now)
  have hrest := List.dropWhile_sublist (l := c.links) (isExpiredAt now)
  have hnodup2 : ((c.links.takeWhile (isExpiredAt now)).map Entry.key
      ++ (c.links.dropWhile (isExpiredAt now)).map Entry.key).Nodup := by
    rw [← keys_split]
    exact h.nodup
  have hdisj := (List.nodup_append.mp hnodup2).2.2
  refine ⟨?_, ?_, ?_⟩
  · show ((c.links.dropWhile (isExpiredAt now)).map Entry.key).Nodup
    exact List.Sublist.nodup (List.Sublist.map Entry.key hrest) h.nodup
  · show (c.lru.filter
        (fun k => !((c.links.takeWhile (isExpiredAt now)).any
          (fun e => e.key == k)))).Perm
      ((c.links.dropWhile (isExpiredAt now)).map Entry.key)
    have hp1 := h.perm.filter
      (fun k => !((c.links.takeWhile (isExpiredAt now)).any
        (fun e => e.key == k)))
    have he1 : (((c.links.takeWhile (isExpiredAt now)).map Entry.key).filter
        (fun k => !((c.links.takeWhile (isExpiredAt now)).any
          (fun e => e.key == k)))) = [] := by
      rw [List.filter_eq_nil_iff]
      intro a ha
      rcases List.mem_map.mp ha with ⟨e, he, hk⟩
      have hany : ((c.links.takeWhile (isExpiredAt now)).any
          (fun e2 => e2.key == a)) = true :=
        List.any_eq_true.mpr ⟨e, he, by simp [hk]⟩
      simp [hany]
    have he2 : (((c.links.dropWhile (isExpiredAt now)).map Entry.key).filter
        (fun k => !((c.links.takeWhile (isExpiredAt now)).any
          (fun e => e.key == k)))) =
        (c.links.dropWhile (isExpiredAt now)).map Entry.key := by
      rw [List.filter_eq_self]
      intro a ha
      have hany : ((c.links.takeWhile (isExpiredAt now)).any
          (fun e2 => e2.key == a)) = false := by
        rw [List.any_eq_false]
        intro e he heq
        have hkey : e.key ∈ (c.links.takeWhile (isExpiredAt now)).map Entry.key :=
          List.mem_map_of_mem Entry.key he
        have h3 : e.key = a := by simpa using heq
        exact hdisj (h3 ▸ hkey) ha
      simp [hany]
    calc (c.lru.filter _).Perm (c.keys.filter _) := hp1
      _ = _ := by
        rw [keys_split c now, List.filter_append, he1, he2, List.nil_append]
  · exact List.Pairwise.sublist (List.dropWhile_sublist _) h.sorted

theorem bounded_ttlExpire {c : ExpCache} {now : Nat} (h : Bounded c now) :
    Bounded (ttlExpire c now).2 now := by
  intro e he
  rw [ttlExpire_snd_links] at he
  exact h e ((List.dropWhile_sublist _).subset he)

theorem bounded_removeKey {c : ExpCache} {now : Nat} (h : Bounded c now)
    (k : String) : Bounded (removeKey c k) now := by
  intro e he
  exact h e ((List.filter_sublist _).subset he)

theorem allLive_removeKey {c : ExpCache} {now : Nat} (h : AllLive c now)
    (k : String) : AllLive (removeKey c k) now := by
  intro e he
  exact h e ((List.filter_sublist _).subset he)

/-- On a state with no expired entry the sweep removes nothing and leaves the
cache unchanged. -/
theorem ttlExpire_of_allLive {c : ExpCache} {now : Nat} (h : AllLive c now) :
    ttlExpire c now = ([], c) := by
  have htake : c.links.takeWhile (isExpiredAt now) = [] := by
    cases hl : c.links with
    | nil => rfl
    | cons a t =>
        have ha : now < a.expires := h a (by rw [hl]; exact List.mem_cons_self a t)
        have hfalse : isExpiredAt now a = false := by
          unfold isExpiredAt
          simp only [decide_eq_false_iff_not]
          omega
        rw [List.takeWhile_cons, hfalse]
        simp
  have hdrop : c.links.dropWhile (isExpiredAt now) = c.links := by
    have hsplit := List.takeWhile_append_dropWhile (isExpiredAt now) c.links
    rw [htake] at hsplit
    simpa using hsplit
  unfold ttlExpire
  rw [htake, hdrop]
  simp

theorem expire_of_allLive {c : ExpCache} {now : Nat} (h : AllLive c now)
    (δ : DeleteBehavior) : c.expire now δ = ([], [], c) := by
  unfold ExpCache.expire
  rw [ttlExpire_of_allLive h]
  rfl

theorem popitem_some_spec {c : ExpCache} {now : Nat} (δ : DeleteBehavior)
    (hwf : WF c) {k : String}
    (hk : (ttlExpire c now).2.lru.head? = some k) :
    ∃ e, lookupEntry (ttlExpire c now).2 k = some e ∧ now < e.expires ∧
      c.popitem now δ = some ((k, e.tid),
        (ttlExpire c now).1.map (fun x => cleanupOne c.agent δ x.key x.tid)
          ++ [cleanupOne c.agent δ k e.tid],
        removeKey (ttlExpire c now).2 k) := by
  have hwf1 := WF_ttlExpire hwf now
  have hmem : k ∈ (ttlExpire c now).2.lru := by
    cases hl : (ttlExpire c now).2.lru with
    | nil => rw [hl] at hk; simp at hk
    | cons a t =>
        rw [hl] at hk
        simp only [List.head?_cons, Option.some.injEq] at hk
        rw [hk] at hl ⊢
        exact hl ▸ List.mem_cons_self k t
  have hkeys : k ∈ (ttlExpire c now).2.keys := hwf1.perm.mem_iff.mp hmem
  rcases Option.isSome_iff_exists.mp (lookupEntry_isSome_iff.mpr hkeys)
    with ⟨e, he⟩
  have hlive : now < e.expires :=
    ttlExpire_allLive hwf now e (lookupEntry_mem he)
  refine ⟨e, he, hlive, ?_⟩
  unfold ExpCache.popitem ExpCache.expire
  simp only
  rw [hk]
  simp only [he]
  rw [if_pos hlive]

theorem lru_ne_nil_of_size_pos {c : ExpCache} (hwf : WF c)
    (h : 1 ≤ c.size) : c.lru ≠ [] := by
  intro hnil
  have hlen : c.lru.length = c.keys.length := hwf.perm.length_eq
  unfold ExpCache.size at h
  unfold ExpCache.keys at hlen
  rw [hnil] at hlen
  simp at hlen
  omega

/-- On a full, all-live cache the eviction loop of `Cache.__setitem__` runs
exactly one round: it pops the least-recently-used key and stops. -/
theorem evictLoop_spec {c : ExpCache} {now : Nat} (δ : DeleteBehavior)
    (hwf : WF c) (hlive : AllLive c now) (hms : 1 ≤ c.maxsize)
    (hsz : c.size ≤ c.maxsize) :
    ∃ evs c2, evictLoop (c.size + 1) c now δ = some (evs, c2) ∧ WF c2 ∧
      AllLive c2 now ∧ c2.links.Sublist c.links ∧
      c2.size + 1 ≤ c.maxsize ∧ c2.maxsize = c.maxsize ∧ c2.ttl = c.ttl ∧
      c2.agent = c.agent ∧
      (c.size + 1 ≤ c.maxsize → evs = [] ∧ c2 = c) := by
  by_cases hfit : c.size + 1 ≤ c.maxsize
  · refine ⟨[], c, ?_, hwf, hlive, List.Sublist.refl _, hfit, rfl, rfl, rfl,
      fun _ => ⟨rfl, rfl⟩⟩
    simp only [evictLoop]
    rw [if_pos hfit]
  · have hfull : c.size = c.maxsize := by omega
    have hpos : 1 ≤ c.size := by omega
    have hne := lru_ne_nil_of_size_pos hwf hpos
    have hk0 : c.lru.head? = some (c.lru.head hne) := List.head?_eq_head hne
    set k0 := c.lru.head hne with hk0def
    have hexp := ttlExpire_of_allLive hlive
    have hk : (ttlExpire c now).2.lru.head? = some k0 := by rw [hexp]; exact hk0
    rcases popitem_some_spec δ hwf hk with ⟨e, hle, hlivee, hpop⟩
    rw [hexp] at hle hpop
    have hk0mem : k0 ∈ c.keys :=
      hwf.perm.mem_iff.mp (List.head_mem hne)
    have hdec := size_removeKey_lt (c := c) hk0mem
    have hwfr := WF_removeKey hwf k0
    have hliver := allLive_removeKey hlive k0
    refine ⟨(ttlExpire c now).1.map
        (fun x => cleanupOne c.agent δ x.key x.tid)
        ++ [cleanupOne c.agent δ k0 e.tid] ++ [], removeKey c k0, ?_, hwfr,
      hliver, links_removeKey_sublist c k0, by omega, rfl, rfl, rfl,
      fun hcon => absurd hcon hfit⟩
    conv_lhs => rw [show c.size + 1 = (c.size) + 1 from rfl]
    simp only [evictLoop]
    rw [if_neg hfit, hpop]
    have hfuel2 : c.size = (c.size - 1) + 1 := by omega
    have hmsr : (removeKey c k0).maxsize = c.maxsize := rfl
    rw [hfuel2]
    simp only [evictLoop]
    rw [if_pos (by
      show (removeKey c k0).links.length + 1 ≤ (removeKey c k0).maxsize
      have h1 : (removeKey c k0).links.length < c.links.length := hdec
      have h2 : c.links.length = c.maxsize := hfull
      rw [hmsr]
      omega)]
    simp [hexp]

/-- The final store step of `TTLCache.__setitem__`: replace any link for `k`
and append a fresh one expiring at `exp`, moving `k` to the most-recently-used
end.  `ExpCache.set` produces exactly this state. -/
def insertFresh (cb : ExpCache) (k v : String) (exp : Nat) : ExpCache :=
  { cb with
      links := cb.links.filter (fun e => !(e.key == k))
                ++ [{ key := k, tid := v, expires := exp }]
      lru := cb.lru.filter (fun x => !(x == k)) ++ [k] }

theorem keys_insertFresh (cb : ExpCache) (k v : String) (exp : Nat) :
    (insertFresh cb k v exp).keys = (removeKey cb k).keys ++ [k] := by
  unfold insertFresh ExpCache.keys removeKey
  simp

theorem size_insertFresh (cb : ExpCache) (k v : String) (exp : Nat) :
    (insertFresh cb k v exp).size = (removeKey cb k).size + 1 := by
  unfold insertFresh removeKey ExpCache.size
  simp

theorem WF_insertFresh {cb : ExpCache} (hwf : WF cb) {k v : String}
    {exp : Nat} (hexp : ∀ e ∈ cb.links, e.expires ≤ exp) :
    WF (insertFresh cb k v exp) := by
  refine ⟨?_, ?_, ?_⟩
  · rw [keys_insertFresh]
    rw [List.nodup_append]
    refine ⟨(WF_removeKey hwf k).nodup, by simp, ?_⟩
    intro x hx hxk
    have : x = k := by simpa using hxk
    exact not_mem_keys_removeKey cb k (this ▸ hx)
  · rw [keys_insertFresh]
    show ((removeKey cb k).lru ++ [k]).Perm _
    exact (WF_removeKey hwf k).perm.append (List.Perm.refl [k])
  · show (cb.links.filter (fun e => !(e.key == k))
        ++ [({ key := k, tid := v, expires := exp } : Entry)]).Pairwise
      (fun a b => a.expires ≤ b.expires)
    rw [List.pairwise_append]
    refine ⟨List.Pairwise.sublist (List.filter_sublist _) hwf.sorted,
      by simp, ?_⟩
    intro a ha b hb
    have hb2 : b = { key := k, tid := v, expires := exp } := by simpa using hb
    rw [hb2]
    exact hexp a ((List.filter_sublist _).subset ha)

theorem bounded_insertFresh {cb : ExpCache} {now : Nat} (hb : Bounded cb now)
    {k v : String} {exp : Nat} (hexp : exp ≤ now + cb.ttl) :
    Bounded (insertFresh cb k v exp) now := by
  intro e he
  rcases List.mem_append.mp he with h1 | h1
  · exact hb e ((List.filter_sublist _).subset h1)
  · have : e = { key := k, tid := v, expires := exp } := by simpa using h1
    rw [this]
    exact hexp

theorem lookup_insertFresh_self (cb : ExpCache) (k v : String) (exp : Nat) :
    lookupEntry (insertFresh cb k v exp) k
      = some { key := k, tid := v, expires := exp } := by
  unfold lookupEntry insertFresh
  simp only
  rw [List.find?_append]
  have h1 : (cb.links.filter (fun e => !(e.key == k))).find?
      (fun e => e.key == k) = none := by
    rw [List.find?_eq_none]
    intro e he
    have := (List.mem_filter.mp he).2
    simp at this ⊢
    exact this
  rw [h1]
  simp

theorem lookup_insertFresh_other (cb : ExpCache) {k j : String} (v : String)
    (exp : Nat) (hjk : j ≠ k) :
    lookupEntry (insertFresh cb k v exp) j = lookupEntry cb j := by
  unfold lookupEntry insertFresh
  simp only
  rw [List.find?_append]
  have h1 : (cb.links.filter (fun e => !(e.key == k))).find?
      (fun e => e.key == j) = cb.links.find? (fun e => e.key == j) :=
    find?_filter_of_imp (fun e hp => by
      have hk : e.key = j := by simpa using hp
      simp only [hk, Bool.not_eq_eq_eq_not, Bool.not_true, beq_eq_false_iff_ne,
        ne_eq]
      exact hjk)
  rw [h1]
  have h2 : (([{ key := k, tid := v, expires := exp }] : List Entry).find?
      (fun e => e.key == j)) = none := by
    rw [List.find?_eq_none]
    intro e he
    have he2 : e = { key := k, tid := v, expires := exp } := by simpa using he
    rw [he2]
    simp only [beq_iff_eq]
    exact fun hh => hjk hh.symm
  rw [h2, Option.or_none]

theorem keys_insertFresh_subset (cb : ExpCache) (k v : String) (exp : Nat) :
    (insertFresh cb k v exp).keys ⊆ k :: cb.keys := by
  rw [keys_insertFresh]
  intro x hx
  rcases List.mem_append.mp hx with h1 | h1
  · rw [keys_removeKey] at h1
    exact List.mem_cons_of_mem k ((List.filter_sublist _).subset h1)
  · have : x = k := by simpa using h1
    rw [this]
    exact List.mem_cons_self k cb.keys

theorem removeKey_of_not_mem {c : ExpCache} (hwf : WF c) {k : String}
    (h : k ∉ c.keys) : removeKey c k = c := by
  have h1 : c.links.filter (fun e => !(e.key == k)) = c.links := by
    rw [List.filter_eq_self]
    intro e he
    have : e.key ≠ k := fun hk => h (hk ▸ List.mem_map_of_mem Entry.key he)
    simpa using this
  have h2 : c.lru.filter (fun x => !(x == k)) = c.lru := by
    rw [List.filter_eq_self]
    intro x hx
    have : x ≠ k := fun hk => h (hk ▸ hwf.perm.mem_iff.mp hx)
    simpa using this
  unfold removeKey
  rw [h1, h2]

theorem keys_ttlExpire_subset (c : ExpCache) (now : Nat) :
    (ttlExpire c now).2.keys ⊆ c.keys := by
  intro x hx
  unfold ExpCache.keys at hx ⊢
  rw [ttlExpire_snd_links] at hx
  exact (List.Sublist.map Entry.key (List.dropWhile_sublist _)).subset hx

/-- Unfolding equation of `ExpCache.set` once the capacity-eviction step is
resolved. -/
theorem set_eq_of_step {c : ExpCache} {now : Nat} {k v : String}
    {δ : DeleteBehavior} (hms : ¬ c.maxsize < 1) {evs2 : List CleanupEvent}
    {c2 : ExpCache}
    (hstep : (if (lookupEntry (ttlExpire c now).2 k).isSome
        then some ([], (ttlExpire c now).2)
        else evictLoop ((ttlExpire c now).2.size + 1) (ttlExpire c now).2 now δ)
      = some (evs2, c2)) :
    c.set now k v δ = some
      ((ttlExpire c now).1.map (fun e => cleanupOne c.agent δ e.key e.tid)
         ++ evs2,
       insertFresh c2 k v (now + c.ttl)) := by
  unfold ExpCache.set ExpCache.expire
  rw [if_neg hms]
  simp only
  rw [hstep]
  rfl

/-- Full behaviour of `cache[key] = value` on a well-formed state within
capacity: it succeeds, stays well formed and within capacity, leaves the
bounds and the agent unchanged, stores the value under the key with expiry
`now + ttl`, introduces no key other than `key`, and, when the key was live
after the sweep, emits only the sweep's cleanup events. -/
theorem set_spec {c : ExpCache} {now : Nat} (k v : String) (δ : DeleteBehavior)
    (hwf : WF c) (hb : Bounded c now) (hms : 1 ≤ c.maxsize)
    (hsz : c.size ≤ c.maxsize) :
    ∃ evs c2, c.set now k v δ = some (evs, c2) ∧ WF c2 ∧ Bounded c2 now ∧
      c2.size ≤ c.maxsize ∧ c2.maxsize = c.maxsize ∧ c2.ttl = c.ttl ∧
      c2.agent = c.agent ∧
      lookupEntry c2 k = some { key := k, tid := v, expires := now + c.ttl } ∧
      c2.keys ⊆ k :: c.keys ∧
      ((lookupEntry (ttlExpire c now).2 k).isSome →
        evs = (ttlExpire c now).1.map
          (fun e => cleanupOne c.agent δ e.key e.tid)) := by
  have hnlt : ¬ c.maxsize < 1 := by omega
  have hwf1 := WF_ttlExpire hwf now
  have hlive1 := ttlExpire_allLive hwf now
  have hb1 := bounded_ttlExpire hb
  have hsz1 : (ttlExpire c now).2.size ≤ c.size := ttlExpire_size_le c now
  have httl1 : (ttlExpire c now).2.ttl = c.ttl := rfl
  by_cases hpres : ((lookupEntry (ttlExpire c now).2 k).isSome : Prop)
  · have hstep : (if (lookupEntry (ttlExpire c now).2 k).isSome
        then some ([], (ttlExpire c now).2)
        else evictLoop ((ttlExpire c now).2.size + 1) (ttlExpire c now).2 now δ)
        = some (([] : List CleanupEvent), (ttlExpire c now).2) := by
      rw [if_pos hpres]
    have heq := set_eq_of_step (v := v) hnlt hstep
    have hkmem : k ∈ (ttlExpire c now).2.keys := lookupEntry_isSome_iff.mp hpres
    refine ⟨_, _, heq, ?_, ?_, ?_, rfl, rfl, rfl, ?_, ?_, ?_⟩
    · exact WF_insertFresh hwf1 (fun e he => hb1 e he)
    · exact bounded_insertFresh hb1 (le_refl _)
    · rw [size_insertFresh]
      have hlt := size_removeKey_lt (c := (ttlExpire c now).2) hkmem
      omega
    · exact lookup_insertFresh_self _ k v _
    · intro x hx
      rcases List.mem_cons.mp (keys_insertFresh_subset _ k v _ hx) with h1 | h1
      · exact h1 ▸ List.mem_cons_self k c.keys
      · exact List.mem_cons_of_mem k (keys_ttlExpire_subset c now h1)
    · intro _
      rw [List.append_nil]
  · have hszle : (ttlExpire c now).2.size ≤ (ttlExpire c now).2.maxsize := by
      have hmseq : (ttlExpire c now).2.maxsize = c.maxsize := rfl
      omega
    rcases evictLoop_spec δ hwf1 hlive1
      (show 1 ≤ (ttlExpire c now).2.maxsize from hms) hszle with
      ⟨evs2, c2b, hloop, hwf2, _, hsub2, hcap2, hms2, httl2, hag2, _⟩
    have hstep : (if (lookupEntry (ttlExpire c now).2 k).isSome
        then some ([], (ttlExpire c now).2)
        else evictLoop ((ttlExpire c now).2.size + 1) (ttlExpire c now).2 now δ)
        = some (evs2, c2b) := by
      rw [if_neg hpres]
      exact hloop
    have heq := set_eq_of_step (v := v) hnlt hstep
    have hknot1 : k ∉ (ttlExpire c now).2.keys := by
      rw [← lookupEntry_isSome_iff]
      exact hpres
    have hknot2 : k ∉ c2b.keys := fun hk =>
      hknot1 ((List.Sublist.map Entry.key hsub2).subset hk)
    have hbnd2 : ∀ e ∈ c2b.links, e.expires ≤ now + c.ttl := by
      intro e he
      have := hb1 e (hsub2.subset he)
      rw [httl1] at this
      exact this
    refine ⟨_, _, heq, ?_, ?_, ?_, ?_, ?_, ?_, ?_, ?_, ?_⟩
    · exact WF_insertFresh hwf2 hbnd2
    · intro e he
      rcases List.mem_append.mp he with h1 | h1
      · have : (insertFresh c2b k v (now + c.ttl)).ttl = c.ttl := by
          show c2b.ttl = c.ttl
          rw [httl2, httl1]
        rw [this]
        exact hbnd2 e ((List.filter_sublist _).subset h1)
      · have he2 : e = { key := k, tid := v, expires := now + c.ttl } := by
          simpa using h1
        have : (insertFresh c2b k v (now + c.ttl)).ttl = c.ttl := by
          show c2b.ttl = c.ttl
          rw [httl2, httl1]
        rw [he2, this]
    · rw [size_insertFresh, removeKey_of_not_mem hwf2 hknot2]
      have hmseq : c2b.maxsize = c.maxsize := by
        rw [hms2]
        exact ttlExpire_snd_maxsize c now
      omega
    · show c2b.maxsize = c.maxsize
      rw [hms2]
      exact ttlExpire_snd_maxsize c now
    · show c2b.ttl = c.ttl
      rw [httl2, httl1]
    · show c2b.agent = c.agent
      rw [hag2]
      exact ttlExpire_snd_agent c now
    · exact lookup_insertFresh_self _ k v _
    · intro x hx
      rcases List.mem_cons.mp (keys_insertFresh_subset _ k v _ hx) with h1 | h1
      · exact h1 ▸ List.mem_cons_self k c.keys
      · exact List.mem_cons_of_mem k
          (keys_ttlExpire_subset c now
            ((List.Sublist.map Entry.key hsub2).subset h1))
    · intro hcon
      exact absurd hcon hpres

theorem pop_live_spec {c : ExpCache} {now : Nat} {k : String} {e : Entry}
    (hl : lookupEntry c k = some e) (hlive : now < e.expires) :
    c.pop now k = (some e.tid, removeKey c k) := by
  have hcl : c.containsLive now k = true := by
    unfold ExpCache.containsLive
    rw [hl]
    simpa using hlive
  unfold ExpCache.pop
  rw [hcl, hl]
  simp

theorem pop_dead_spec {c : ExpCache} {now : Nat} {k : String}
    (h : c.containsLive now k = false) : c.pop now k = (none, c) := by
  unfold ExpCache.pop
  rw [h]
  simp

theorem get_live_spec {c : ExpCache} {now : Nat} {k d : String} {e : Entry}
    (hl : lookupEntry c k = some e) (hlive : now < e.expires) :
    c.get now k d
      = (e.tid, { c with lru := c.lru.filter (fun x => !(x == k)) ++ [k] }) := by
  unfold ExpCache.get
  rw [hl]
  simp [hlive]

theorem get_absent_spec {c : ExpCache} {now : Nat} {k d : String}
    (h : lookupEntry c k = none) : c.get now k d = (d, c) := by
  unfold ExpCache.get
  rw [h]

theorem get_expired_spec {c : ExpCache} {now : Nat} {k d : String} {e : Entry}
    (hl : lookupEntry c k = some e) (hexp : ¬ now < e.expires) :
    c.get now k d
      = (d, { c with lru := c.lru.filter (fun x => !(x == k)) ++ [k] }) := by
  unfold ExpCache.get
  rw [hl]
  simp [hexp]

theorem get_links_unchanged (c : ExpCache) (now : Nat) (k d : String) :
    (c.get now k d).2.links = c.links := by
  unfold ExpCache.get
  split
  · rfl
  · split <;> rfl

/-- A key live at `now` survives the sweep at `now` untouched, and no expired
item of the sweep carries that key. -/
theorem lookup_ttlExpire_of_live {c : ExpCache} (hwf : WF c) {now : Nat}
    {k : String} {e : Entry} (hl : lookupEntry c k = some e)
    (hlive : now < e.expires) :
    lookupEntry (ttlExpire c now).2 k = some e
      ∧ ∀ x ∈ (ttlExpire c now).1, x.key ≠ k := by
  have hmem := lookupEntry_mem hl
  have hkey := lookupEntry_key hl
  have hnotex : ∀ x ∈ c.links.takeWhile (isExpiredAt now), x.key ≠ k := by
    intro x hx hxk
    have hxmem : x ∈ c.links := (List.takeWhile_sublist _).subset hx
    have hxe : x = e :=
      List.inj_on_of_nodup_map hwf.nodup hxmem hmem (by rw [hxk, hkey])
    have hp := List.mem_takeWhile_imp hx
    unfold isExpiredAt at hp
    simp at hp
    rw [hxe] at hp
    omega
  constructor
  · have hrest : e ∈ (ttlExpire c now).2.links := by
      rw [ttlExpire_snd_links]
      have hsplit := List.takeWhile_append_dropWhile (isExpiredAt now) c.links
      have : e ∈ c.links.takeWhile (isExpiredAt now)
          ++ c.links.dropWhile (isExpiredAt now) := by rw [hsplit]; exact hmem
      rcases List.mem_append.mp this with h1 | h1
      · exact absurd hkey (hnotex e h1)
      · exact h1
    exact lookupEntry_of_mem (WF_ttlExpire hwf now).nodup hrest k hkey
  · exact hnotex

theorem popitem_state_indep (c : ExpCache) (now : Nat) (δ δ2 : DeleteBehavior) :
    (c.popitem now δ).map (fun r => (r.1, r.2.2))
      = (c.popitem now δ2).map (fun r => (r.1, r.2.2)) := by
  unfold ExpCache.popitem ExpCache.expire
  simp only
  split
  · rfl
  · split
    · split
      · rfl
      · rfl
    · rfl

theorem evictLoop_state_indep (now : Nat) (δ δ2 : DeleteBehavior) :
    ∀ (fuel : Nat) (c : ExpCache),
      (evictLoop fuel c now δ).map Prod.snd
        = (evictLoop fuel c now δ2).map Prod.snd := by
  intro fuel
  induction fuel with
  | zero => intro c; rfl
  | succ n ih =>
      intro c
      simp only [evictLoop]
      by_cases h : c.size + 1 ≤ c.maxsize
      · rw [if_pos h, if_pos h]
      · rw [if_neg h, if_neg h]
        have hpi := popitem_state_indep c now δ δ2
        cases h1 : c.popitem now δ with
        | none =>
            cases h2 : c.popitem now δ2 with
            | none => rfl
            | some r2 => rw [h1, h2] at hpi; simp at hpi
        | some r1 =>
            cases h2 : c.popitem now δ2 with
            | none => rw [h1, h2] at hpi; simp at hpi
            | some r2 =>
                rw [h1, h2] at hpi
                simp only [Option.map_some'] at hpi
                obtain ⟨kv1, evs1, c1⟩ := r1
                obtain ⟨kv2, evs2, c2⟩ := r2
                simp only [Option.some.injEq, Prod.mk.injEq] at hpi
                obtain ⟨hkv, hc⟩ := hpi
                subst hc
                have hrec := ih c1
                show Option.map Prod.snd (match evictLoop n c1 now δ with
                    | none => none
                    | some (evs2b, c2) => some (evs1 ++ evs2b, c2))
                  = Option.map Prod.snd (match evictLoop n c1 now δ2 with
                    | none => none
                    | some (evs2b, c2) => some (evs2 ++ evs2b, c2))
                cases h3 : evictLoop n c1 now δ with
                | none =>
                    cases h4 : evictLoop n c1 now δ2 with
                    | none => rfl
                    | some s2 => rw [h3, h4] at hrec; simp at hrec
                | some s1 =>
                    cases h4 : evictLoop n c1 now δ2 with
                    | none => rw [h3, h4] at hrec; simp at hrec
                    | some s2 =>
                        rw [h3, h4] at hrec
                        simp only [Option.map_some'] at hrec
                        obtain ⟨f1, g1⟩ := s1
                        obtain ⟨f2, g2⟩ := s2
                        simp only at hrec
                        have hg : g1 = g2 := by injection hrec
                        subst hg
                        rfl

theorem set_state_indep (c : ExpCache) (now : Nat) (k v : String)
    (δ δ2 : DeleteBehavior) :
    (c.set now k v δ).map Prod.snd = (c.set now k v δ2).map Prod.snd := by
  unfold ExpCache.set ExpCache.expire
  by_cases hms : c.maxsize < 1
  · rw [if_pos hms, if_pos hms]
  · rw [if_neg hms, if_neg hms]
    simp only
    by_cases hpres : ((lookupEntry (ttlExpire c now).2 k).isSome : Prop)
    · rw [if_pos hpres, if_pos hpres]
      rfl
    · rw [if_neg hpres, if_neg hpres]
      have hrec := evictLoop_state_indep now δ δ2
        ((ttlExpire c now).2.size + 1) (ttlExpire c now).2
      cases h3 : evictLoop ((ttlExpire c now).2.size + 1)
          (ttlExpire c now).2 now δ with
      | none =>
          cases h4 : evictLoop ((ttlExpire c now).2.size + 1)
              (ttlExpire c now).2 now δ2 with
          | none => rfl
          | some s2 => rw [h3, h4] at hrec; simp at hrec
      | some s1 =>
          cases h4 : evictLoop ((ttlExpire c now).2.size + 1)
              (ttlExpire c now).2 now δ2 with
          | none => rw [h3, h4] at hrec; simp at hrec
          | some s2 =>
              rw [h3, h4] at hrec
              simp only [Option.map_some'] at hrec
              obtain ⟨e1, d1⟩ := s1
              obtain ⟨e2, d2⟩ := s2
              simp only at hrec
              have hd : d1 = d2 := by injection hrec
              subst hd
              rfl

theorem MonoFrom_append_left {now : Nat} :
    ∀ {pre suf : List (Nat × String × String)},
      MonoFrom now (pre ++ suf) → MonoFrom now pre := by
  intro pre
  induction pre generalizing now with
  | nil => intro suf _; trivial
  | cons op rest ih =>
      obtain ⟨t, k, v⟩ := op
      intro suf h
      obtain ⟨h1, h2⟩ := h
      exact ⟨h1, ih h2⟩

/-- Invariant of a monotone-time sequence of `set` operations: every step
succeeds and the entry count stays within the fixed capacity. -/
theorem runSets_spec (δ : DeleteBehavior) :
    ∀ (ops : List (Nat × String × String)) (c : ExpCache) (now : Nat),
      WF c → Bounded c now → 1 ≤ c.maxsize → c.size ≤ c.maxsize →
      MonoFrom now ops →
      ∃ c2, runSets c δ ops = some c2 ∧ WF c2 ∧ c2.size ≤ c.maxsize ∧
        c2.maxsize = c.maxsize := by
  intro ops
  induction ops with
  | nil =>
      intro c now hwf _ _ hsz _
      exact ⟨c, rfl, hwf, hsz, rfl⟩
  | cons op rest ih =>
      obtain ⟨t, k, v⟩ := op
      intro c now hwf hb hms hsz hmono
      obtain ⟨hnt, hmono2⟩ := hmono
      rcases set_spec k v δ hwf (hb.mono hnt) hms hsz with
        ⟨evs, c1, hset, hwf1, hb1, hsz1, hms1, _, _, _, _, _⟩
      rcases ih c1 t hwf1 hb1 (by rw [hms1]; exact hms) (by rw [hms1]; exact hsz1)
        hmono2 with ⟨c2, hrun, hwf2, hsz2, hms2⟩
      refine ⟨c2, ?_, hwf2, ?_, ?_⟩
      · unfold runSets
        rw [hset]
        exact hrun
      · rw [hms1] at hsz2
        exact hsz2
      · rw [hms2, hms1]

/-- Concrete witness state: one live entry, agent configured. -/
def w1 : ExpCache :=
  { links := [{ key := "a", tid := "t1", expires := 10 }], lru := ["a"],
    maxsize := 2, ttl := 10, agent := some { client := 0 } }

/-- Claim C1: with an agent handle configured (and deletion scheduling
succeeding, the normal environment), every entry removed by TTL expiry
(`ExpCache.expire`) or by LRU eviction (`ExpCache.popitem`) gets exactly one
scheduled remote thread-deletion event for its thread id: the emitted event
list is the one-to-one image of the removed entries, so no removed entry is
skipped and none is cleaned up twice. -/
theorem eviction_schedules_exactly_one_cleanup (c : ExpCache) (now : Nat)
    (a : Agent) (h : c.agent = some a) :
    (c.expire now noFail).2.1
      = (c.expire now noFail).1.map (fun p => CleanupEvent.scheduled p.1 p.2)
    ∧ (∀ kt evs c2, c.popitem now noFail = some (kt, evs, c2) →
        evs = (c.expire now noFail).1.map
            (fun p => CleanupEvent.scheduled p.1 p.2)
          ++ [CleanupEvent.scheduled kt.1 kt.2]) := by
  have hone : ∀ k t, cleanupOne c.agent noFail k t
      = CleanupEvent.scheduled k t := by
    intro k t
    rw [h]
    rfl
  have hexpart : (c.expire now noFail).2.1
      = (c.expire now noFail).1.map
        (fun p => CleanupEvent.scheduled p.1 p.2) := by
    show (ttlExpire c now).1.map (fun e => cleanupOne c.agent noFail e.key e.tid)
      = ((ttlExpire c now).1.map (fun e => (e.key, e.tid))).map
        (fun p => CleanupEvent.scheduled p.1 p.2)
    rw [List.map_map]
    exact List.map_congr_left (fun e _ => by rw [hone]; rfl)
  refine ⟨hexpart, ?_⟩
  intro kt evs c2 hp
  unfold ExpCache.popitem ExpCache.expire at hp
  simp only at hp
  split at hp
  · exact absurd hp (by simp)
  · split at hp
    · split at hp
      · simp only [Option.some.injEq, Prod.mk.injEq] at hp
        obtain ⟨hkt, hevs, _⟩ := hp
        rw [← hevs, ← hkt]
        rw [hexpart.symm]
        show (ttlExpire c now).1.map
            (fun e => cleanupOne c.agent noFail e.key e.tid) ++ _ = _
        rw [hone]
        rfl
      · exact absurd hp (by simp)
    · exact absurd hp (by simp)

/-- Witness for C1 at the concrete state `w1` and time 5. -/
theorem eviction_schedules_exactly_one_cleanup_witness :
    (w1.expire 5 noFail).2.1
      = (w1.expire 5 noFail).1.map (fun p => CleanupEvent.scheduled p.1 p.2)
    ∧ (∀ kt evs c2, w1.popitem 5 noFail = some (kt, evs, c2) →
        evs = (w1.expire 5 noFail).1.map
            (fun p => CleanupEvent.scheduled p.1 p.2)
          ++ [CleanupEvent.scheduled kt.1 kt.2]) :=
  eviction_schedules_exactly_one_cleanup w1 5 { client := 0 } rfl

/-- Concrete witness state: one expired and one live entry, no agent. -/
def w7 : ExpCache :=
  { links := [{ key := "a", tid := "t1", expires := 3 },
              { key := "b", tid := "t2", expires := 10 }],
    lru := ["a", "b"], maxsize := 2, ttl := 10, agent := none }

/-- Claim C7: with no agent handle configured, entries removed by expiry or
LRU eviction are still removed, but cleanup is skipped silently: the sweep
leaves exactly the unexpired suffix, every emitted event is a `skipped`
marker (no remote deletion call is constructed), and the operations return
normally, so no exception reaches the caller. -/
theorem no_agent_skips_cleanup (c : ExpCache) (now : Nat) (δ : DeleteBehavior)
    (h : c.agent = none) :
    ((c.expire now δ).2.2.links = c.links.dropWhile (isExpiredAt now)
      ∧ (c.expire now δ).2.1 = (c.expire now δ).1.map
          (fun p => CleanupEvent.skipped p.1 p.2))
    ∧ (∀ kt evs c2, c.popitem now δ = some (kt, evs, c2) →
        evs = (c.expire now δ).1.map (fun p => CleanupEvent.skipped p.1 p.2)
            ++ [CleanupEvent.skipped kt.1 kt.2]
        ∧ lookupEntry c2 kt.1 = none) := by
  have hone : ∀ k t, cleanupOne c.agent δ k t = CleanupEvent.skipped k t := by
    intro k t
    rw [h]
    rfl
  have hexpart : (c.expire now δ).2.1
      = (c.expire now δ).1.map (fun p => CleanupEvent.skipped p.1 p.2) := by
    show (ttlExpire c now).1.map (fun e => cleanupOne c.agent δ e.key e.tid)
      = ((ttlExpire c now).1.map (fun e => (e.key, e.tid))).map
        (fun p => CleanupEvent.skipped p.1 p.2)
    rw [List.map_map]
    exact List.map_congr_left (fun e _ => by rw [hone]; rfl)
  refine ⟨⟨rfl, hexpart⟩, ?_⟩
  intro kt evs c2 hp
  unfold ExpCache.popitem ExpCache.expire at hp
  simp only at hp
  split at hp
  · exact absurd hp (by simp)
  · split at hp
    · split at hp
      · simp only [Option.some.injEq, Prod.mk.injEq] at hp
        obtain ⟨hkt, hevs, hc2⟩ := hp
        constructor
        · rw [← hevs, ← hkt]
          rw [hexpart.symm]
          show (ttlExpire c now).1.map
              (fun e => cleanupOne c.agent δ e.key e.tid) ++ _ = _
          rw [hone]
          rfl
        · rw [← hc2, ← hkt]
          exact lookupEntry_removeKey_self _ _
      · exact absurd hp (by simp)
    · exact absurd hp (by simp)

/-- Witness for C7 at the concrete state `w7` and time 5. -/
theorem no_agent_skips_cleanup_witness :
    ((w7.expire 5 noFail).2.2.links = w7.links.dropWhile (isExpiredAt 5)
      ∧ (w7.expire 5 noFail).2.1 = (w7.expire 5 noFail).1.map
          (fun p => CleanupEvent.skipped p.1 p.2))
    ∧ (∀ kt evs c2, w7.popitem 5 noFail = some (kt, evs, c2) →
        evs = (w7.expire 5 noFail).1.map
            (fun p => CleanupEvent.skipped p.1 p.2)
          ++ [CleanupEvent.skipped kt.1 kt.2]
        ∧ lookupEntry c2 kt.1 = none) :=
  no_agent_skips_cleanup w7 5 noFail rfl

/-- Claim C2: cleanup failures are invisible to cache callers.  For any
behaviour of the remote-deletion scheduling — including one that always
raises — `set` on a well-formed in-capacity state completes successfully and
yields exactly the entry state it yields when cleanup succeeds; the entry
states produced by the sweep and by LRU eviction are likewise independent of
the behaviour; `get` leaves the stored entries unchanged, and `pop` either
leaves the cache unchanged or removes exactly the popped key — no operation
has a failure outcome caused by cleanup. -/
theorem cleanup_isolation (c : ExpCache) (now : Nat) (k v d : String)
    (δ : DeleteBehavior) (hwf : WF c) (hb : Bounded c now)
    (hms : 1 ≤ c.maxsize) (hsz : c.size ≤ c.maxsize) :
    (∃ evs c2 evs2, c.set now k v δ = some (evs, c2)
        ∧ c.set now k v noFail = some (evs2, c2))
    ∧ (c.expire now δ).2.2 = (c.expire now noFail).2.2
    ∧ (c.popitem now δ).map (fun r => (r.1, r.2.2))
        = (c.popitem now noFail).map (fun r => (r.1, r.2.2))
    ∧ (c.get now k d).2.links = c.links
    ∧ ((c.pop now k).2 = c ∨ (c.pop now k).2 = removeKey c k) := by
  refine ⟨?_, rfl, popitem_state_indep c now δ noFail,
    get_links_unchanged c now k d, ?_⟩
  · rcases set_spec k v δ hwf hb hms hsz with ⟨evs, c2, hset, _⟩
    have hind := set_state_indep c now k v δ noFail
    rw [hset] at hind
    cases h2 : c.set now k v noFail with
    | none => rw [h2] at hind; simp at hind
    | some r2 =>
        rw [h2] at hind
        simp only [Option.map_some', Option.some.injEq] at hind
        obtain ⟨e2, c2b⟩ := r2
        simp only at hind
        exact ⟨evs, c2, e2, hset, by rw [hind]⟩
  · unfold ExpCache.pop
    split
    · split
      · right; rfl
      · left; rfl
    · left; rfl

/-- Witness for C2 at the concrete state `w1`, time 5, with the
always-raising deletion behaviour. -/
theorem cleanup_isolation_witness :
    (∃ evs c2 evs2, w1.set 5 "a" "t9" alwaysFail = some (evs, c2)
        ∧ w1.set 5 "a" "t9" noFail = some (evs2, c2))
    ∧ (w1.expire 5 alwaysFail).2.2 = (w1.expire 5 noFail).2.2
    ∧ (w1.popitem 5 alwaysFail).map (fun r => (r.1, r.2.2))
        = (w1.popitem 5 noFail).map (fun r => (r.1, r.2.2))
    ∧ (w1.get 5 "a" "x").2.links = w1.links
    ∧ ((w1.pop 5 "a").2 = w1 ∨ (w1.pop 5 "a").2 = removeKey w1 "a") :=
  cleanup_isolation w1 5 "a" "t9" "x" alwaysFail
    ⟨by decide, by decide, by decide⟩
    (show ∀ e ∈ w1.links, e.expires ≤ 5 + w1.ttl by decide)
    (by decide) (by decide)

theorem length_filter_ne_of_nodup {l : List String} (hn : l.Nodup)
    {k : String} (h : k ∈ l) :
    (l.filter (fun x => !(x == k))).length + 1 = l.length := by
  induction l with
  | nil => simp at h
  | cons a t ih =>
      rcases List.mem_cons.mp h with he | ht
      · have hk : a ∉ t := (List.nodup_cons.mp hn).1
        have h1 : t.filter (fun x => !(x == k)) = t := by
          rw [List.filter_eq_self]
          intro x hx
          have hxk : x ≠ k := fun hxe => hk ((hxe.trans he) ▸ hx)
          simpa using hxk
        rw [List.filter_cons_of_neg (by simp [he]), h1]
        simp
      · have hn2 := (List.nodup_cons.mp hn).2
        have hak : a ≠ k := fun he => (List.nodup_cons.mp hn).1 (he ▸ ht)
        rw [List.filter_cons_of_pos (by simpa using hak)]
        simp only [List.length_cons]
        rw [← ih hn2 ht]

theorem size_removeKey_eq {c : ExpCache} (hn : c.keys.Nodup) {k : String}
    (h : k ∈ c.keys) : (removeKey c k).size + 1 = c.size := by
  have hlen : (removeKey c k).keys.length + 1 = c.keys.length := by
    rw [keys_removeKey]
    exact length_filter_ne_of_nodup hn h
  unfold ExpCache.keys at hlen
  simp only [List.length_map] at hlen
  exact hlen

/-- Claim C3: capacity invariant of the thread cache created by
`get_thread_cache` (maxsize 1000).  Along any monotone-timed sequence of
`set` operations from the fresh cache, every prefix executes successfully and
never leaves more than 1000 live entries; moreover an insertion of a fresh
key into a full (all-live) cache first evicts exactly the
least-recently-used key, keeping the count at capacity. -/
theorem capacity_invariant (a : Agent) (δ : DeleteBehavior)
    (ops : List (Nat × String × String)) (hmono : MonoFrom 0 ops) :
    (∀ pre suf, ops = pre ++ suf →
      ∃ cp, runSets (getThreadCache none a).1 δ pre = some cp
        ∧ cp.size ≤ 1000)
    ∧ (∀ (c : ExpCache) (now : Nat) (k v : String), WF c → AllLive c now →
        lookupEntry c k = none → c.size = c.maxsize → 1 ≤ c.maxsize →
        ∃ k0 evs c2, c.lru.head? = some k0
          ∧ c.set now k v δ = some (evs, c2)
          ∧ k0 ∉ c2.keys ∧ c2.size = c.maxsize) := by
  constructor
  · intro pre suf hsplit
    have hmonopre : MonoFrom 0 pre := by
      rw [hsplit] at hmono
      exact MonoFrom_append_left hmono
    have hwf0 : WF (getThreadCache none a).1 :=
      ⟨List.nodup_nil, List.Perm.nil, List.Pairwise.nil⟩
    have hb0 : Bounded (getThreadCache none a).1 0 :=
      fun e he => absurd he (List.not_mem_nil e)
    rcases runSets_spec δ pre (getThreadCache none a).1 0 hwf0 hb0
      (show (1 : Nat) ≤ 1000 by omega) (show (0 : Nat) ≤ 1000 by omega)
      hmonopre with ⟨cp, hrun, _, hszp, _⟩
    exact ⟨cp, hrun, hszp⟩
  · intro c now k v hwf hlive hfresh hfull hms
    have hnlt : ¬ c.maxsize < 1 := by omega
    have hpos : 1 ≤ c.size := by omega
    have hne := lru_ne_nil_of_size_pos hwf hpos
    have hk0 : c.lru.head? = some (c.lru.head hne) := List.head?_eq_head hne
    set k0 := c.lru.head hne with hk0def
    have hexp := ttlExpire_of_allLive hlive
    have hkexp : (ttlExpire c now).2.lru.head? = some k0 := by
      rw [hexp]; exact hk0
    rcases popitem_some_spec δ hwf hkexp with ⟨e, hle, hlivee, hpop⟩
    rw [hexp] at hle hpop
    have hk0mem : k0 ∈ c.keys := hwf.perm.mem_iff.mp (List.head_mem hne)
    have hdec := size_removeKey_eq hwf.nodup hk0mem
    have hloop : evictLoop (c.size + 1) c now δ
        = some ((ttlExpire c now).1.map
            (fun x => cleanupOne c.agent δ x.key x.tid)
          ++ [cleanupOne c.agent δ k0 e.tid] ++ [], removeKey c k0) := by
      have hfit : ¬ c.size + 1 ≤ c.maxsize := by omega
      simp only [evictLoop]
      rw [if_neg hfit, hpop]
      have hfuel2 : c.size = (c.size - 1) + 1 := by omega
      rw [hfuel2]
      simp only [evictLoop]
      rw [if_pos (by
        show (removeKey c k0).links.length + 1 ≤ (removeKey c k0).maxsize
        have h1 : (removeKey c k0).links.length + 1 = c.links.length := hdec
        have h2 : c.links.length = c.maxsize := hfull
        show (removeKey c k0).links.length + 1 ≤ c.maxsize
        omega)]
      simp [hexp]
    have hstep : (if (lookupEntry (ttlExpire c now).2 k).isSome
        then some ([], (ttlExpire c now).2)
        else evictLoop ((ttlExpire c now).2.size + 1) (ttlExpire c now).2 now δ)
        = some ((ttlExpire c now).1.map
            (fun x => cleanupOne c.agent δ x.key x.tid)
          ++ [cleanupOne c.agent δ k0 e.tid] ++ [], removeKey c k0) := by
      rw [if_neg (by rw [hexp]; simp [hfresh])]
      have hloop2 := hloop
      rw [hexp] at hloop2
      rw [hexp]
      exact hloop2
    have heq := set_eq_of_step (v := v) hnlt hstep
    have hknotin : k ∉ c.keys := lookupEntry_eq_none_iff.mp hfresh
    have hknotrk : k ∉ (removeKey c k0).keys := by
      intro hmem
      rw [keys_removeKey] at hmem
      exact hknotin ((List.filter_sublist _).subset hmem)
    have hwfrk := WF_removeKey hwf k0
    refine ⟨k0, _, _, hk0, heq, ?_, ?_⟩
    · intro hmem
      rcases List.mem_append.mp ((keys_insertFresh _ k v _) ▸ hmem) with h1 | h1
      · rw [keys_removeKey] at h1
        exact not_mem_keys_removeKey c k0
          ((List.filter_sublist _).subset h1)
      · have hkk0 : k0 = k := by simpa using h1
        exact hknotin (hkk0 ▸ hk0mem)
    · rw [size_insertFresh, removeKey_of_not_mem hwfrk hknotrk]
      omega

/-- Witness for C3: three inserts at times 0, 1, 2. -/
theorem capacity_invariant_witness :
    (∀ pre suf,
      ([((0 : Nat), "a", "t1"), (1, "b", "t2"), (2, "c", "t3")] :
          List (Nat × String × String)) = pre ++ suf →
      ∃ cp, runSets (getThreadCache none { client := 0 }).1 noFail pre
          = some cp ∧ cp.size ≤ 1000)
    ∧ (∀ (c : ExpCache) (now : Nat) (k v : String), WF c → AllLive c now →
        lookupEntry c k = none → c.size = c.maxsize → 1 ≤ c.maxsize →
        ∃ k0 evs c2, c.lru.head? = some k0
          ∧ c.set now k v noFail = some (evs, c2)
          ∧ k0 ∉ c2.keys ∧ c2.size = c.maxsize) :=
  capacity_invariant { client := 0 } noFail
    [(0, "a", "t1"), (1, "b", "t2"), (2, "c", "t3")]
    ⟨by omega, by omega, by omega, trivial⟩

/-- The cache state after `set("x","tid1")` at time 0 on a fresh cache with
capacity 1000 and TTL 1 second. -/
def c4state : ExpCache :=
  { links := [{ key := "x", tid := "tid1", expires := 1 }], lru := ["x"],
    maxsize := 1000, ttl := 1, agent := some { client := 0 } }

/-- Counterexample to claim C4: in the scenario (capacity 1000, TTL 1,
`set("x","tid1")` at time 0, `get("x","missing")` at time 2) the get does
return "missing", but no cleanup attempt for "tid1" is scheduled by the time
the get returns: the set emitted no cleanup events, and the get — whose code
path (`Cache.get` over `TTLCache.__getitem__`) contains no expiry sweep and
no deletion call — leaves the cache state unchanged, the expired entry still
cached. -/
theorem expired_get_schedules_no_cleanup :
    (mkExpCache 1000 1 (some { client := 0 })).set 0 "x" "tid1" noFail
      = some ([], c4state)
    ∧ c4state.get 2 "x" "missing" = ("missing", c4state) := by
  constructor
  · decide
  · decide

/-- Claim C4 as amended: the get at time 2 returns "missing", but it
schedules no cleanup and leaves the expired entry cached; the cleanup
attempt for "tid1" is scheduled by the next operation that runs the expiry
sweep (an explicit `expire`, a `set`, or `popitem`), which removes the entry
and emits exactly one scheduled deletion for "tid1". -/
theorem expired_get_cleanup_deferred_to_next_sweep :
    (mkExpCache 1000 1 (some { client := 0 })).set 0 "x" "tid1" noFail
      = some ([], c4state)
    ∧ c4state.get 2 "x" "missing" = ("missing", c4state)
    ∧ c4state.expire 2 noFail
      = ([("x", "tid1")], [CleanupEvent.scheduled "x" "tid1"],
         mkExpCache 1000 1 (some { client := 0 })) := by
  refine ⟨by decide, by decide, by decide⟩

/-- Claim C5: `pop(key, default)` on a present (live) key removes the entry
and returns its value; other keys keep their entries; an absent (or already
expired) key yields the default with the cache untouched.  The pop path
(`Cache.pop`) contains no deletion call, so no cleanup is scheduled by a pop:
its result carries no cleanup events at all. -/
theorem pop_removes_without_cleanup (c : ExpCache) (now : Nat) (k : String) :
    (∀ e, lookupEntry c k = some e → now < e.expires →
      c.pop now k = (some e.tid, removeKey c k)
      ∧ lookupEntry (removeKey c k) k = none
      ∧ (∀ j, j ≠ k → lookupEntry (removeKey c k) j = lookupEntry c j))
    ∧ (c.containsLive now k = false → c.pop now k = (none, c)) := by
  refine ⟨?_, pop_dead_spec⟩
  intro e hl hlive
  exact ⟨pop_live_spec hl hlive, lookupEntry_removeKey_self c k,
    fun j hj => lookupEntry_removeKey_other c (fun hh => hj hh.symm)⟩

/-- Witness state for C5: a cache containing exactly `("a", "t1")`. -/
def w5 : ExpCache :=
  { links := [{ key := "a", tid := "t1", expires := 3600 }], lru := ["a"],
    maxsize := 1000, ttl := 3600, agent := some { client := 0 } }

/-- Witness for C5 at `w5`, popping the live key "a" at time 1. -/
theorem pop_removes_without_cleanup_witness :
    (∀ e, lookupEntry w5 "a" = some e → 1 < e.expires →
      w5.pop 1 "a" = (some e.tid, removeKey w5 "a")
      ∧ lookupEntry (removeKey w5 "a") "a" = none
      ∧ (∀ j, j ≠ "a" →
          lookupEntry (removeKey w5 "a") j = lookupEntry w5 j))
    ∧ (w5.containsLive 1 "a" = false → w5.pop 1 "a" = (none, w5)) :=
  pop_removes_without_cleanup w5 1 "a"

theorem evKey_cleanupOne (ag : Option Agent) (δ : DeleteBehavior)
    (k t : String) : (cleanupOne ag δ k t).evKey = k := by
  unfold cleanupOne
  cases ag with
  | none => rfl
  | some a =>
      by_cases h : δ k t = true
      · rw [if_pos h]
        rfl
      · rw [if_neg h]
        rfl

/-- Claim C6: last-write-wins.  With monotone times, a positive TTL and the
second write landing before the first expires, `set k v1; set k v2` leaves a
single entry for `k` holding `v2` with expiry refreshed to `now2 + ttl`;
`get k` returns `v2`; and the second write emits no cleanup event about `k`,
so the overwritten `v1` never receives a cleanup attempt — only the stored
`v2` can trigger one when its entry is eventually removed. -/
theorem last_write_wins (c : ExpCache) (now1 now2 : Nat) (k v1 v2 d : String)
    (δ : DeleteBehavior) (hwf : WF c) (hb : Bounded c now1)
    (hms : 1 ≤ c.maxsize) (hsz : c.size ≤ c.maxsize) (h12 : now1 ≤ now2)
    (httlpos : 1 ≤ c.ttl) (hnoexp : now2 < now1 + c.ttl) :
    ∃ evs1 c1 evs2 c2,
      c.set now1 k v1 δ = some (evs1, c1)
      ∧ c1.set now2 k v2 δ = some (evs2, c2)
      ∧ (c2.get now2 k d).1 = v2
      ∧ c2.keys.count k = 1
      ∧ lookupEntry c2 k
          = some { key := k, tid := v2, expires := now2 + c.ttl }
      ∧ (∀ ev ∈ evs2, ev.evKey ≠ k) := by
  rcases set_spec k v1 δ hwf hb hms hsz with
    ⟨evs1, c1, hset1, hwf1, hb1, hsz1, hms1, httl1, _, hlk1, _, _⟩
  have hb1b : Bounded c1 now2 := hb1.mono h12
  rcases set_spec k v2 δ hwf1 hb1b
    (by rw [hms1]; exact hms) (by rw [hms1]; exact hsz1) with
    ⟨evs2, c2, hset2, hwf2, _, _, _, httl2, _, hlk2, _, hevs2⟩
  have hlive1 : now2 < ({ key := k, tid := v1, expires := now1 + c.ttl }
      : Entry).expires := hnoexp
  rcases lookup_ttlExpire_of_live hwf1 hlk1 hlive1 with ⟨hlex, hnotex⟩
  have hevs2eq : evs2 = (ttlExpire c1 now2).1.map
      (fun e => cleanupOne c1.agent δ e.key e.tid) := by
    apply hevs2
    rw [hlex]
    rfl
  have hlk2b : lookupEntry c2 k
      = some { key := k, tid := v2, expires := now2 + c.ttl } := by
    rw [hlk2, httl1]
  refine ⟨evs1, c1, evs2, c2, hset1, hset2, ?_, ?_, hlk2b, ?_⟩
  · have hlive2 : now2 < ({ key := k, tid := v2, expires := now2 + c.ttl }
        : Entry).expires := by
      show now2 < now2 + c.ttl
      omega
    rw [get_live_spec hlk2b hlive2]
  · exact List.count_eq_one_of_mem hwf2.nodup
      (lookupEntry_isSome_iff.mp (by rw [hlk2b]; rfl))
  · intro ev hev
    rw [hevs2eq] at hev
    rcases List.mem_map.mp hev with ⟨x, hx, hxev⟩
    rw [← hxev, evKey_cleanupOne]
    exact hnotex x hx

/-- Witness for C6: two writes to key "k" on a fresh cache (capacity 4,
TTL 10) at times 0 and 1. -/
theorem last_write_wins_witness :
    ∃ evs1 c1 evs2 c2,
      (mkExpCache 4 10 (some { client := 0 })).set 0 "k" "t1" noFail
        = some (evs1, c1)
      ∧ c1.set 1 "k" "t2" noFail = some (evs2, c2)
      ∧ (c2.get 1 "k" "d").1 = "t2"
      ∧ c2.keys.count "k" = 1
      ∧ lookupEntry c2 "k"
          = some { key := "k", tid := "t2",
                   expires := 1 + (mkExpCache 4 10 (some { client := 0 })).ttl }
      ∧ (∀ ev ∈ evs2, ev.evKey ≠ "k") :=
  last_write_wins (mkExpCache 4 10 (some { client := 0 })) 0 1 "k" "t1" "t2"
    "d" noFail ⟨List.nodup_nil, List.Perm.nil, List.Pairwise.nil⟩
    (fun e he => absurd he (List.not_mem_nil e))
    (by decide) (by decide) (by decide) (by decide) (by decide)

theorem corrupt_key_ne (cid s : String) : cid ++ "_corrupt_" ++ s ≠ cid := by
  intro h
  have hl := congrArg String.length h
  rw [String.length_append, String.length_append] at hl
  have h9 : ("_corrupt_" : String).length = 9 := rfl
  omega

/-- Claim C8: the no-response fallback of `stream_openai_text`.  When the
conversation id holds a live thread id, the fallback pops it — a subsequent
`get` of the conversation id returns the default — and re-inserts exactly
that thread id under the key `{cid}_corrupt_{suffix}` with a fresh TTL, so
the remote thread still receives eventual cleanup through normal TTL expiry
or LRU eviction; when nothing (live) was cached for the conversation id,
nothing is re-inserted and the cache is left unchanged. -/
theorem corrupt_rekey_preserves_cleanup (c : ExpCache) (now : Nat)
    (cid d : String) (sfx : Nat) (δ : DeleteBehavior) (hwf : WF c)
    (hb : Bounded c now) (hms : 1 ≤ c.maxsize) (hsz : c.size ≤ c.maxsize) :
    (∀ e, lookupEntry c cid = some e → now < e.expires →
      ∃ evs c2, streamFallbackCleanup c now cid sfx δ = some (evs, c2)
        ∧ lookupEntry c2 cid = none
        ∧ (c2.get now cid d).1 = d
        ∧ lookupEntry c2 (cid ++ "_corrupt_" ++ toString sfx)
            = some { key := cid ++ "_corrupt_" ++ toString sfx, tid := e.tid,
                     expires := now + c.ttl })
    ∧ (c.containsLive now cid = false →
        streamFallbackCleanup c now cid sfx δ = some ([], c)) := by
  constructor
  · intro e hl hlive
    have hpop := pop_live_spec hl hlive
    have heq : streamFallbackCleanup c now cid sfx δ
        = (removeKey c cid).set now (cid ++ "_corrupt_" ++ toString sfx)
            e.tid δ := by
      unfold streamFallbackCleanup
      rw [hpop]
    have hcidmem : cid ∈ c.keys := lookupEntry_isSome_iff.mp (by rw [hl]; rfl)
    have hszrk : (removeKey c cid).size ≤ (removeKey c cid).maxsize := by
      have h1 := size_removeKey_lt (c := c) hcidmem
      show (removeKey c cid).size ≤ c.maxsize
      omega
    rcases set_spec (cid ++ "_corrupt_" ++ toString sfx) e.tid δ
      (WF_removeKey hwf cid) (bounded_removeKey hb cid)
      (show 1 ≤ (removeKey c cid).maxsize from hms) hszrk with
      ⟨evs, c2, hset, _, _, _, _, _, _, hlk2, hsub2, _⟩
    have hcidnot : cid ∉ c2.keys := by
      intro hmem
      rcases List.mem_cons.mp (hsub2 hmem) with h1 | h1
      · exact corrupt_key_ne cid (toString sfx) h1.symm
      · exact not_mem_keys_removeKey c cid h1
    have hlknone : lookupEntry c2 cid = none :=
      lookupEntry_eq_none_iff.mpr hcidnot
    refine ⟨evs, c2, ?_, hlknone, ?_, ?_⟩
    · rw [heq]
      exact hset
    · rw [get_absent_spec hlknone]
    · rw [hlk2]
      rfl
  · intro hdead
    have hpop := pop_dead_spec hdead
    unfold streamFallbackCleanup
    rw [hpop]

/-- Witness state for C8: a cache holding a live thread id for "conv". -/
def w8 : ExpCache :=
  { links := [{ key := "conv", tid := "t9", expires := 3600 }],
    lru := ["conv"], maxsize := 1000, ttl := 3600,
    agent := some { client := 0 } }

/-- Witness for C8 at `w8`, conversation id "conv", suffix 1234, time 5. -/
theorem corrupt_rekey_preserves_cleanup_witness :
    (∀ e, lookupEntry w8 "conv" = some e → 5 < e.expires →
      ∃ evs c2, streamFallbackCleanup w8 5 "conv" 1234 noFail = some (evs, c2)
        ∧ lookupEntry c2 "conv" = none
        ∧ (c2.get 5 "conv" "d").1 = "d"
        ∧ lookupEntry c2 ("conv" ++ "_corrupt_" ++ toString 1234)
            = some { key := "conv" ++ "_corrupt_" ++ toString 1234,
                     tid := e.tid, expires := 5 + w8.ttl })
    ∧ (w8.containsLive 5 "conv" = false →
        streamFallbackCleanup w8 5 "conv" 1234 noFail = some ([], w8)) :=
  corrupt_rekey_preserves_cleanup w8 5 "conv" "d" 1234 noFail
    ⟨by decide, by decide, by decide⟩
    (show ∀ e ∈ w8.links, e.expires ≤ 5 + w8.ttl by decide)
    (by decide) (by decide)

/-- Claim C9: the thread cache is a lazily created process-wide singleton
with capacity 1000 and TTL 3600 fixed at creation: the first
`get_thread_cache` call creates exactly that instance and stores it in the
module-level variable, and every later call returns the stored instance
unchanged — in particular neither capacity nor TTL is ever modified by a
later call. -/
theorem thread_cache_singleton (a a2 : Agent) (c : ExpCache) :
    (getThreadCache none a).1 = mkExpCache 1000 3600 (some a)
    ∧ (getThreadCache none a).2 = some (mkExpCache 1000 3600 (some a))
    ∧ (getThreadCache none a).1.maxsize = 1000
    ∧ (getThreadCache none a).1.ttl = 3600
    ∧ getThreadCache (some c) a2 = (c, some c)
    ∧ (getThreadCache (some c) a2).1.maxsize = c.maxsize
    ∧ (getThreadCache (some c) a2).1.ttl = c.ttl :=
  ⟨rfl, rfl, rfl, rfl, rfl, rfl, rfl⟩

/-- Claim C10: after the singleton is created with agent `a1`, a call with
any other agent `a2` returns the unchanged instance whose agent field is
still `a1`; since the cleanup block uses the instance's agent field, all
later eviction and expiry cleanup is dispatched through the first agent. -/
theorem first_agent_sticky (a1 a2 : Agent) :
    ((getThreadCache none a1).1).agent = some a1
    ∧ getThreadCache (getThreadCache none a1).2 a2
        = ((getThreadCache none a1).1, (getThreadCache none a1).2)
    ∧ ((getThreadCache (getThreadCache none a1).2 a2).1).agent = some a1
    ∧ (∀ (δ : DeleteBehavior) (k t : String),
        cleanupOne ((getThreadCache (getThreadCache none a1).2 a2).1).agent
          δ k t = cleanupOne (some a1) δ k t) :=
  ⟨rfl, rfl, rfl, fun _ _ _ => rfl⟩

end NcData

